import Mathlib

/-!
Shallow embedding of the confound-regression / signal-cleaning pipeline of
the `neu502b-2025` course notebooks (the `fmri-2` preprocessing lab and the
experimental-design lab).

Machine floats are modelled by exact rationals, so every "within
floating-point tolerance" statement becomes an exact equality.  Time series
are `List ℚ`; matrices are Mathlib's `Matrix (Fin T) (Fin C) ℚ`.
-/

namespace Neu502b

open Matrix

/-! ### Censor mask construction

Embedding of `bad_vols = np.argwhere(fd > fd_threshold).ravel()`:
the elementwise boolean mask `fd > fd_threshold` and the ascending list of
indices of its true entries. -/

/-- The boolean censor mask `d > t`, one entry per time sample
(the array `fd > fd_threshold` that `np.argwhere` consumes). -/
def censorMask (d : List ℚ) (t : ℚ) : List Bool :=
  d.map (fun x => decide (t < x))

/-- Embeds `np.argwhere(fd > fd_threshold).ravel()`: the indices of the true mask
entries, in ascending order. -/
def badVols (d : List ℚ) (t : ℚ) : List ℕ :=
  (List.range d.length).filter (fun i => (censorMask d t).getD i false)

/-- Modelled from the spec: the notebook cell `# Construct scrubbers` is an
unfilled stub; the spec describes one indicator column per flagged sample,
"length T, all zeros except a 1 at row i".  -/
def indicatorColumn (T i : ℕ) : List ℚ :=
  (List.range T).map (fun r => if r = i then 1 else 0)

/-- Modelled from the spec: the scrubber columns, one per censored volume,
emitted in ascending index order (the order `np.argwhere` produces). -/
def scrubbers (d : List ℚ) (t : ℚ) : List (List ℚ) :=
  (badVols d t).map (indicatorColumn d.length)

/-- Modelled from the spec: appending the scrubber columns to an existing
regressor set (each regressor is one column). -/
def appendScrubbers (rs : List (List ℚ)) (d : List ℚ) (t : ℚ) : List (List ℚ) :=
  rs ++ scrubbers d t

/-! ### Column extraction from the confounds table

A table is a list of named columns.  `getCols` embeds the head-motion
extraction `df[hm_labels].values` (pandas raises `KeyError` when any label
is missing); `filterCols` embeds the aCompCor extraction
`df.filter(acompcor_labels).values` (pandas `filter` keeps only the labels
present, in the order of the requested list, and never raises). -/

/-- The spec's `MissingColumnError`, carrying the missing column name. -/
inductive MissingColumnError where
  | missing (name : String)
deriving DecidableEq

/-- The spec's `DegenerateChannelError`. -/
inductive DegenerateChannelError where
  | degenerate
deriving DecidableEq

/-- Look up a named column in the table. -/
def lookupCol (tbl : List (String × List ℚ)) (name : String) : Option (List ℚ) :=
  (tbl.find? (fun c => decide (c.fst = name))).map Prod.snd

/-- Embeds `df[labels].values`: project exactly the named columns in the requested
order; fail if any requested column is absent (pandas `KeyError`). -/
def getCols (tbl : List (String × List ℚ)) (labels : List String) :
    Except MissingColumnError (List (List ℚ)) :=
  match labels.find? (fun l => (lookupCol tbl l).isNone) with
  | some l => .error (.missing l)
  | none => .ok (labels.map (fun l => (lookupCol tbl l).getD []))

/-- Embeds `df.filter(labels).values`: keep only the requested labels that are
present, in the order of the requested list; absent labels are silently
dropped and no error is ever raised. -/
def filterCols (tbl : List (String × List ℚ)) (labels : List String) :
    List (List ℚ) :=
  (labels.filter (fun l => (lookupCol tbl l).isSome)).map
    (fun l => (lookupCol tbl l).getD [])

/-! ### Hemodynamic-response convolution

Modelled from the spec: the notebook cells that call `np.convolve` are
unfilled stubs ("# Convolve impulses with HRF and plot"); the spec fixes the
operation as the full discrete convolution of length
`len(events) + len(kernel) - 1`. -/

/-- Modelled from the spec: full discrete convolution,
`(conv x k)[n] = ∑_{i≤n} x[i]·k[n−i]` with out-of-range entries read as 0,
of length `x.length + k.length - 1` (truncated subtraction: 0 when both
inputs are empty). -/
def conv (x k : List ℚ) : List ℚ :=
  (List.range (x.length + k.length - 1)).map (fun n =>
    ∑ i in Finset.range (n + 1), x.getD i 0 * k.getD (n - i) 0)

/-- Pointwise scalar multiple of a time series. -/
def sclist (a : ℚ) (x : List ℚ) : List ℚ := x.map (fun v => a * v)

/-- Pointwise sum of two equal-length time series. -/
def addlist (x y : List ℚ) : List ℚ := List.zipWith (· + ·) x y

/-! ### The filter / confound-regression stage

Modelled from the spec: the notebook delegates this stage to
`nilearn.signal.clean` and leaves its invocation an unfilled stub; the spec
fixes it as the ordinary-least-squares residual of the signal against the
nuisance design matrix, applied per channel, with optional
percent-signal-change standardization dividing by the original channel
mean. -/

/-- The inverse Gram matrix `(Nᵀ N)⁻¹` computed explicitly (inverse determinant times adjugate), so
that it is executable over ℚ. -/
def gramInv {T R : ℕ} (N : Matrix (Fin T) (Fin R) ℚ) : Matrix (Fin R) (Fin R) ℚ :=
  ((Nᵀ * N).det)⁻¹ • (Nᵀ * N).adjugate

/-- Modelled from the spec: the OLS residual projection
`S − N (Nᵀ N)⁻¹ Nᵀ S` removing the nuisance design from every channel. -/
def projOut {T R C : ℕ} (N : Matrix (Fin T) (Fin R) ℚ)
    (S : Matrix (Fin T) (Fin C) ℚ) : Matrix (Fin T) (Fin C) ℚ :=
  S - N * gramInv N * (Nᵀ * S)

/-- Mean of channel `j` of the signal matrix (the original, pre-filter
channel mean used by percent-signal-change standardization). -/
def colMean {T C : ℕ} (S : Matrix (Fin T) (Fin C) ℚ) (j : Fin C) : ℚ :=
  (∑ i, S i j) / (T : ℚ)

/-- Modelled from the spec: the standardized cleaning stage.  Every channel
whose original mean is zero is degenerate and the stage fails atomically
with `DegenerateChannelError`; otherwise each channel's residual is
rescaled to percent signal change (divided by the original channel mean and
scaled by 100). -/
def cleanStd {T R C : ℕ} (N : Matrix (Fin T) (Fin R) ℚ)
    (S : Matrix (Fin T) (Fin C) ℚ) :
    Except DegenerateChannelError (Matrix (Fin T) (Fin C) ℚ) :=
  if ∃ j, colMean S j = 0 then .error .degenerate
  else .ok (Matrix.of (fun i j => projOut N S i j / colMean S j * 100))

/-! ### Event-related design construction (design lab)

Embedding of the `face_ids` / `house_ids` / `face_events` / `house_events`
cells and of the boxcar `face_blocks` / `house_blocks` cells. -/

/-- Embeds `house_ids = [i for i in np.arange(n_events) if i not in face_ids]`. -/
def houseIds (face : List ℕ) (n : ℕ) : List ℕ :=
  (List.range n).filter (fun i => decide (i ∉ face))

/-- Embeds `onsets = np.cumsum(tr + g)` for geometric samples `g`: entry `j` is the
sum of the first `j + 1` increments `tr + g[i]`. -/
def onsetsOf (tr : ℕ) (g : List ℕ) : List ℕ :=
  (List.range g.length).map (fun j =>
    ∑ i in Finset.range (j + 1), (tr + g.getD i 0))

/-- Fancy indexing `onsets[ids]`. -/
def indexSel (ons : List ℕ) (ids : List ℕ) : List ℕ :=
  ids.map (fun j => ons.getD j 0)

/-- Embeds `events = np.zeros(n); events[onsets] = 1`. -/
def mkEvents (n : ℕ) (ons : List ℕ) : List ℚ :=
  (List.range n).map (fun t => if t ∈ ons then 1 else 0)

/-- The slice assignment `v[onset:onset + dur] = 1`: indices in
`[onset, onset + dur)` become 1, all others keep their value; indices past
the end of `v` are silently truncated, as in NumPy. -/
def setOnes (v : List ℚ) (onset dur : ℕ) : List ℚ :=
  v.mapIdx (fun i x => if onset ≤ i ∧ i < onset + dur then 1 else x)

/-- The boxcar construction: start from `np.zeros(n)` and assign ones over
`[onset, onset + dur)` for each onset in turn. -/
def blocks (n : ℕ) (ons : List ℕ) (dur : ℕ) : List ℚ :=
  ons.foldl (fun v o => setOnes v o dur) (List.replicate n 0)

end Neu502b

namespace Neu502b

open Matrix

/-! ### Shared helper lemmas -/

/-- Reading an entry of a mapped range list inside bounds. -/
lemma map_range_getD {α : Type} (d : α) (n : ℕ) (f : ℕ → α) {i : ℕ}
    (hi : i < n) : ((List.range n).map f).getD i d = f i := by
  rw [List.getD_eq_getElem _ _ (by simpa using hi), List.getElem_map,
    List.getElem_range]

lemma censorMask_length (d : List ℚ) (t : ℚ) :
    (censorMask d t).length = d.length := by
  simp [censorMask]

/-- Entry `i` of the censor mask, inside bounds. -/
lemma censorMask_getD (d : List ℚ) (t : ℚ) {i : ℕ} (hi : i < d.length) :
    (censorMask d t).getD i false = decide (t < d.getD i 0) := by
  unfold censorMask
  rw [List.getD_eq_getElem _ _ (by simpa using hi), List.getElem_map,
    List.getD_eq_getElem _ _ hi]

/-- C1: the censor mask has the length of the displacement series, entry `i`
is true iff `d[i] > t` strictly, and a sample exactly at the threshold is
never censored. -/
theorem censorMask_strict (d : List ℚ) (t : ℚ) (ht : 0 < t) :
    (censorMask d t).length = d.length ∧
    (∀ i, i < d.length →
      ((censorMask d t).getD i false = true ↔ t < d.getD i 0)) ∧
    (∀ i, i < d.length → d.getD i 0 = t →
      (censorMask d t).getD i false = false) := by
  refine ⟨censorMask_length d t, ?_, ?_⟩
  · intro i hi
    rw [censorMask_getD d t hi]
    exact decide_eq_true_iff
  · intro i hi he
    rw [censorMask_getD d t hi, he]
    simp

/-- Witness for `censorMask_strict` at `d = [1/10, 3/10, 3/5]`, `t = 3/10`. -/
theorem censorMask_strict_witness :
    0 < (3 / 10 : ℚ) ∧
      ((censorMask [1/10, 3/10, 3/5] (3/10)).length = 3 ∧
        (∀ i, i < ([(1:ℚ)/10, 3/10, 3/5] : List ℚ).length →
          ((censorMask [1/10, 3/10, 3/5] (3/10)).getD i false = true ↔
            (3/10 : ℚ) < ([(1:ℚ)/10, 3/10, 3/5] : List ℚ).getD i 0)) ∧
        (∀ i, i < ([(1:ℚ)/10, 3/10, 3/5] : List ℚ).length →
          ([(1:ℚ)/10, 3/10, 3/5] : List ℚ).getD i 0 = 3/10 →
          (censorMask [1/10, 3/10, 3/5] (3/10)).getD i false = false)) :=
  ⟨by norm_num, censorMask_strict [1/10, 3/10, 3/5] (3/10) (by norm_num)⟩

/-- C3: the indicator-regressor emission produces the flagged indices in
ascending order with no duplicates, exactly the strictly-over-threshold
samples; each emitted column has length `T` with a single 1 at the flagged
row and zeros elsewhere; an all-false mask appends nothing; and the
concrete scenario `[0.1, 0.3, 0.6, 0.1, 0.9]` at threshold `0.5` yields
exactly the two indicator columns with their 1 at rows 2 and 4. -/
theorem scrubbers_spec (d : List ℚ) (t : ℚ) (rs : List (List ℚ)) :
    scrubbers d t = (badVols d t).map (indicatorColumn d.length) ∧
    (∀ i, i ∈ badVols d t ↔ i < d.length ∧ t < d.getD i 0) ∧
    List.Pairwise (· < ·) (badVols d t) ∧
    (∀ i r : ℕ, (indicatorColumn d.length i).length = d.length ∧
      (r < d.length →
        (indicatorColumn d.length i).getD r 0 = if r = i then 1 else 0)) ∧
    ((∀ b ∈ censorMask d t, b = false) → appendScrubbers rs d t = rs) ∧
    scrubbers [1/10, 3/10, 3/5, 1/10, 9/10] (1/2) =
      [indicatorColumn 5 2, indicatorColumn 5 4] := by
  refine ⟨rfl, ?_, ?_, ?_, ?_,
    by norm_num [scrubbers, badVols, censorMask, List.range_succ]⟩
  · intro i
    unfold badVols
    rw [List.mem_filter, List.mem_range]
    constructor
    · rintro ⟨h1, h2⟩
      rw [censorMask_getD d t h1] at h2
      exact ⟨h1, of_decide_eq_true h2⟩
    · rintro ⟨h1, h2⟩
      rw [censorMask_getD d t h1]
      exact ⟨h1, decide_eq_true h2⟩
  · exact (List.pairwise_lt_range _).filter _
  · intro i r
    refine ⟨by simp [indicatorColumn], fun hr => ?_⟩
    unfold indicatorColumn
    rw [map_range_getD _ _ _ hr]
  · intro hall
    suffices hempty : badVols d t = [] by
      simp [appendScrubbers, scrubbers, hempty]
    apply List.filter_eq_nil_iff.mpr
    intro i hi
    have hi' := List.mem_range.mp hi
    have hlen : i < (censorMask d t).length := by
      simpa [censorMask_length] using hi'
    have hfalse : (censorMask d t)[i] = false := hall _ (List.getElem_mem hlen)
    rw [List.getD_eq_getElem _ _ hlen]
    simp [hfalse]

/-- Witness for `scrubbers_spec`: an all-false mask (`d = [1]`, `t = 2`)
leaves the regressor set unchanged. -/
theorem scrubbers_spec_witness :
    (∀ b ∈ censorMask [(1 : ℚ)] 2, b = false) ∧
      appendScrubbers [[(5 : ℚ)]] [(1 : ℚ)] 2 = [[(5 : ℚ)]] :=
  ⟨by decide, (scrubbers_spec [(1 : ℚ)] 2 [[(5 : ℚ)]]).2.2.2.2.1 (by decide)⟩

/-- C10: the boxcar construction is total: whatever the onsets and the stim
duration, it returns a vector of length `n_trs` whose entries all lie in
`{0, 1}` (onsets reaching past the end are silently truncated, as NumPy
slice assignment does). -/
theorem blocks_total (n : ℕ) (ons : List ℕ) (dur : ℕ) :
    (blocks n ons dur).length = n ∧
      ∀ x ∈ blocks n ons dur, x = 0 ∨ x = 1 := by
  suffices h : ∀ v : List ℚ, v.length = n → (∀ x ∈ v, x = 0 ∨ x = 1) →
      (ons.foldl (fun v o => setOnes v o dur) v).length = n ∧
        ∀ x ∈ ons.foldl (fun v o => setOnes v o dur) v, x = 0 ∨ x = 1 by
    exact h (List.replicate n 0) (by simp)
      (fun x hx => Or.inl (List.eq_of_mem_replicate hx))
  induction ons with
  | nil => exact fun v h1 h2 => ⟨h1, h2⟩
  | cons o os ih =>
    intro v h1 h2
    simp only [List.foldl_cons]
    refine ih (setOnes v o dur) (by simpa [setOnes] using h1) ?_
    intro x hx
    obtain ⟨i, hi, hEq⟩ := List.mem_iff_getElem.mp hx
    have hi' : i < v.length := by simpa [setOnes] using hi
    rw [show (setOnes v o dur)[i] = if o ≤ i ∧ i < o + dur then 1 else v[i] by
      simp [setOnes, List.getElem_mapIdx]] at hEq
    by_cases hc : o ≤ i ∧ i < o + dur
    · right; rw [← hEq, if_pos hc]
    · rw [← hEq, if_neg hc]
      exact h2 _ (List.getElem_mem hi')

/-- Witness for `blocks_total`: the entry 1 of `blocks 3 [1] 5` is in
`{0, 1}`. -/
theorem blocks_total_witness :
    (1 : ℚ) ∈ blocks 3 [1] 5 ∧ ((1 : ℚ) = 0 ∨ (1 : ℚ) = 1) :=
  ⟨by decide, (blocks_total 3 [1] 5).2 1 (by decide)⟩

/-- C6: the full discrete convolution has length
`len(events) + len(kernel) − 1` (truncated subtraction), and on an all-zero
events sequence it yields an all-zero sequence of that length; being a total
function, it never fails. -/
theorem conv_full_length_zero (x k : List ℚ) :
    (conv x k).length = x.length + k.length - 1 ∧
      ((∀ a ∈ x, a = 0) → ∀ b ∈ conv x k, b = 0) := by
  refine ⟨by simp [conv], ?_⟩
  intro hx b hb
  unfold conv at hb
  obtain ⟨n, hn, rfl⟩ := List.mem_map.mp hb
  apply Finset.sum_eq_zero
  intro i hi
  have hzero : x.getD i 0 = 0 := by
    rcases Nat.lt_or_ge i x.length with h | h
    · exact hx _ (by rw [List.getD_eq_getElem _ _ h]; exact List.getElem_mem h)
    · exact List.getD_eq_default _ _ h
  rw [hzero, zero_mul]

/-- Witness for `conv_full_length_zero` at `x = [0, 0]`, `k = [1, 2]`. -/
theorem conv_full_length_zero_witness :
    (∀ a ∈ ([0, 0] : List ℚ), a = 0) ∧
      ∀ b ∈ conv [0, 0] [1, 2], b = 0 :=
  ⟨by decide, (conv_full_length_zero [0, 0] [1, 2]).2 (by decide)⟩

/-- Reading an entry of a pointwise sum of equal-length series. -/
lemma addlist_getD (u v : List ℚ) (h : u.length = v.length) (i : ℕ) :
    (addlist u v).getD i 0 = u.getD i 0 + v.getD i 0 := by
  induction u generalizing v i with
  | nil =>
    have hv : v = [] := List.length_eq_zero.mp h.symm
    subst hv
    simp [addlist]
  | cons a u ih =>
    cases v with
    | nil => simp at h
    | cons b v =>
      cases i with
      | zero => simp [addlist]
      | succ j =>
        simp only [addlist, List.zipWith_cons_cons, List.getD_cons_succ]
        exact ih v (by simpa using h) j

/-- Reading an entry of a scalar multiple of a series. -/
lemma sclist_getD (a : ℚ) (u : List ℚ) (i : ℕ) :
    (sclist a u).getD i 0 = a * u.getD i 0 := by
  rcases Nat.lt_or_ge i u.length with h | h
  · rw [sclist, List.getD_eq_getElem _ _ (by simpa using h), List.getElem_map,
      List.getD_eq_getElem _ _ h]
  · rw [sclist, List.getD_eq_default _ _ (by simpa using h),
      List.getD_eq_default _ _ h, mul_zero]

lemma addlist_length (u v : List ℚ) :
    (addlist u v).length = min u.length v.length := by
  simp [addlist]

lemma sclist_length (a : ℚ) (u : List ℚ) : (sclist a u).length = u.length := by
  simp [sclist]

/-- Entry `n` of the full convolution, inside bounds. -/
lemma conv_getD (x k : List ℚ) {n : ℕ} (hn : n < x.length + k.length - 1) :
    (conv x k).getD n 0 =
      ∑ i in Finset.range (n + 1), x.getD i 0 * k.getD (n - i) 0 := by
  rw [conv, map_range_getD _ _ _ hn]

/-- C7: convolution is linear in its events argument: for equal-length event
series `x` and `y` and scalars `a`, `b`,
`conv (a·x + b·y, k) = a·conv(x, k) + b·conv(y, k)` (exact over ℚ). -/
theorem conv_linear (a b : ℚ) (x y k : List ℚ) (h : x.length = y.length) :
    conv (addlist (sclist a x) (sclist b y)) k =
      addlist (sclist a (conv x k)) (sclist b (conv y k)) := by
  have hlx : (addlist (sclist a x) (sclist b y)).length = x.length := by
    simp [addlist_length, sclist_length, h]
  apply List.ext_getElem
  · simp [conv, addlist_length, sclist_length, h]
  · intro n h1 h2
    have hn : n < x.length + k.length - 1 := by
      have := h1
      rw [conv_full_length_zero _ k |>.1, hlx] at this
      exact this
    rw [← List.getD_eq_getElem _ 0 h1, ← List.getD_eq_getElem _ 0 h2]
    rw [conv_getD _ _ (by rw [hlx]; exact hn)]
    rw [addlist_getD _ _ (by simp [sclist_length, (conv_full_length_zero x k).1,
      (conv_full_length_zero y k).1, h]) n]
    rw [sclist_getD, sclist_getD, conv_getD x k hn,
      conv_getD y k (by rw [← h]; exact hn)]
    have hsplit : ∀ i ∈ Finset.range (n + 1),
        (addlist (sclist a x) (sclist b y)).getD i 0 * k.getD (n - i) 0 =
          a * (x.getD i 0 * k.getD (n - i) 0) +
            b * (y.getD i 0 * k.getD (n - i) 0) := by
      intro i _
      rw [addlist_getD _ _ (by simp [sclist_length, h]) i, sclist_getD,
        sclist_getD]
      ring
    rw [Finset.sum_congr rfl hsplit, Finset.sum_add_distrib,
      ← Finset.mul_sum, ← Finset.mul_sum]

/-- Witness for `conv_linear` at `a = 2`, `b = 5`, `x = [1, 2]`,
`y = [3, 4]`, `k = [1, 1]`. -/
theorem conv_linear_witness :
    ([(1 : ℚ), 2] : List ℚ).length = ([(3 : ℚ), 4] : List ℚ).length ∧
      conv (addlist (sclist 2 [1, 2]) (sclist 5 [3, 4])) [1, 1] =
        addlist (sclist 2 (conv [1, 2] [1, 1])) (sclist 5 (conv [3, 4] [1, 1])) :=
  ⟨rfl, conv_linear 2 5 [1, 2] [3, 4] [1, 1] rfl⟩

/-- Full column rank (linearly independent columns) makes the Gram matrix
`Nᵀ N` nonsingular. -/
lemma det_gram_ne_zero {T R : ℕ} (N : Matrix (Fin T) (Fin R) ℚ)
    (hfull : LinearIndependent ℚ (fun j => Nᵀ j)) : (Nᵀ * N).det ≠ 0 := by
  have hker : ∀ x : Fin R → ℚ, (Nᵀ * N).mulVec x = 0 → x = 0 := by
    intro x hx
    have hNx : N.mulVec x = 0 := by
      have h2 : x ⬝ᵥ (Nᵀ * N).mulVec x = 0 := by
        rw [hx, Matrix.dotProduct_zero]
      rw [← Matrix.mulVec_mulVec, Matrix.dotProduct_mulVec,
        Matrix.vecMul_transpose] at h2
      funext i
      have hsum : ∑ j, N.mulVec x j * N.mulVec x j = 0 := h2
      exact mul_self_eq_zero.mp ((Finset.sum_eq_zero_iff_of_nonneg
        (fun j _ => mul_self_nonneg _)).mp hsum i (Finset.mem_univ i))
    have hlin := Fintype.linearIndependent_iff.mp hfull x ?_
    · funext i
      exact hlin i
    · funext i
      rw [Finset.sum_apply]
      simp only [Pi.smul_apply, smul_eq_mul, Matrix.transpose_apply,
        Pi.zero_apply]
      calc ∑ j, x j * N i j = ∑ j, N i j * x j := by
            exact Finset.sum_congr rfl (fun j _ => mul_comm _ _)
        _ = N.mulVec x i := rfl
        _ = 0 := by rw [hNx]; rfl
  have hinj : Function.Injective (Nᵀ * N).mulVec := by
    intro u v huv
    have h0 : (Nᵀ * N).mulVec (u - v) = 0 := by
      rw [Matrix.mulVec_sub, huv, sub_self]
    exact sub_eq_zero.mp (hker _ h0)
  have hunit : IsUnit (Nᵀ * N) := Matrix.mulVec_injective_iff_isUnit.mp hinj
  exact ((Matrix.isUnit_iff_isUnit_det _).mp hunit).ne_zero

lemma gram_mul_gramInv {T R : ℕ} (N : Matrix (Fin T) (Fin R) ℚ)
    (hdet : (Nᵀ * N).det ≠ 0) : (Nᵀ * N) * gramInv N = 1 := by
  rw [gramInv, Matrix.mul_smul, Matrix.mul_adjugate, smul_smul,
    inv_mul_cancel₀ hdet, one_smul]

lemma gramInv_mul_gram {T R : ℕ} (N : Matrix (Fin T) (Fin R) ℚ)
    (hdet : (Nᵀ * N).det ≠ 0) : gramInv N * (Nᵀ * N) = 1 := by
  rw [gramInv, Matrix.smul_mul, Matrix.adjugate_mul, smul_smul,
    inv_mul_cancel₀ hdet, one_smul]

/-- The residual of the OLS projection is orthogonal to the design. -/
lemma projOut_orth {T R C : ℕ} (N : Matrix (Fin T) (Fin R) ℚ)
    (S : Matrix (Fin T) (Fin C) ℚ) (hdet : (Nᵀ * N).det ≠ 0) :
    Nᵀ * projOut N S = 0 := by
  unfold projOut
  rw [Matrix.mul_sub]
  simp only [← Matrix.mul_assoc]
  rw [gram_mul_gramInv N hdet, Matrix.one_mul, sub_self]

/-- The OLS projection annihilates anything in the design's column space. -/
lemma projOut_colspace {T R C : ℕ} (N : Matrix (Fin T) (Fin R) ℚ)
    (E : Matrix (Fin R) (Fin C) ℚ) (hdet : (Nᵀ * N).det ≠ 0) :
    projOut N (N * E) = 0 := by
  unfold projOut
  simp only [← Matrix.mul_assoc]
  have key : N * gramInv N * Nᵀ * N = N := by
    calc N * gramInv N * Nᵀ * N = N * (gramInv N * (Nᵀ * N)) := by
          rw [Matrix.mul_assoc, Matrix.mul_assoc]
      _ = N * (1 : Matrix (Fin R) (Fin R) ℚ) := by rw [gramInv_mul_gram N hdet]
      _ = N := Matrix.mul_one N
  rw [key, sub_self]

/-- C2: for a full-column-rank nuisance design `N` with fewer columns than
rows, the cleaned output (same shape as `S` by construction) is orthogonal
to every column of `N`: `Nᵀ · projOut N S = 0` (exact over ℚ, the
floating-point tolerance of the spec becoming exact equality). -/
theorem clean_orthogonal {T R C : ℕ} (N : Matrix (Fin T) (Fin R) ℚ)
    (S : Matrix (Fin T) (Fin C) ℚ) (hR : R < T)
    (hfull : LinearIndependent ℚ (fun j => Nᵀ j)) :
    Nᵀ * projOut N S = 0 :=
  projOut_orth N S (det_gram_ne_zero N hfull)

/-- Witness for `clean_orthogonal`: a 2×1 intercept-only design and a 2×1
signal. -/
theorem clean_orthogonal_witness :
    (1 < 2 ∧ LinearIndependent ℚ
      (fun j : Fin 1 =>
        (Matrix.of fun _ _ => (1 : ℚ) : Matrix (Fin 2) (Fin 1) ℚ)ᵀ j)) ∧
    (Matrix.of fun _ _ => (1 : ℚ) : Matrix (Fin 2) (Fin 1) ℚ)ᵀ *
      projOut (Matrix.of fun _ _ => (1 : ℚ) : Matrix (Fin 2) (Fin 1) ℚ)
        (Matrix.of fun i _ => if i = 0 then 1 else 3 :
          Matrix (Fin 2) (Fin 1) ℚ) = 0 := by
  have hli : LinearIndependent ℚ
      (fun j : Fin 1 =>
        (Matrix.of fun _ _ => (1 : ℚ) : Matrix (Fin 2) (Fin 1) ℚ)ᵀ j) := by
    apply linearIndependent_unique
    intro h
    have := congrFun h 0
    simp [Matrix.transpose_apply, Matrix.of_apply] at this
  exact ⟨⟨by norm_num, hli⟩,
    clean_orthogonal _ _ (by norm_num) hli⟩

/-- C8: the cleaning projection is idempotent: running the filter-and-regress
stage a second time with the same full-column-rank nuisance design leaves an
already-cleaned signal unchanged (exactly, over ℚ). -/
theorem clean_idempotent {T R C : ℕ} (N : Matrix (Fin T) (Fin R) ℚ)
    (S : Matrix (Fin T) (Fin C) ℚ)
    (hfull : LinearIndependent ℚ (fun j => Nᵀ j)) :
    projOut N (projOut N S) = projOut N S := by
  have hdet := det_gram_ne_zero N hfull
  have hstep : projOut N (projOut N S) =
      projOut N S - N * gramInv N * (Nᵀ * projOut N S) := rfl
  rw [hstep, projOut_orth N S hdet, Matrix.mul_zero, sub_zero]

/-- Witness for `clean_idempotent`: the 2×1 intercept-only design. -/
theorem clean_idempotent_witness :
    LinearIndependent ℚ
      (fun j : Fin 1 =>
        (Matrix.of fun _ _ => (1 : ℚ) : Matrix (Fin 2) (Fin 1) ℚ)ᵀ j) ∧
    projOut (Matrix.of fun _ _ => (1 : ℚ) : Matrix (Fin 2) (Fin 1) ℚ)
        (projOut (Matrix.of fun _ _ => (1 : ℚ) : Matrix (Fin 2) (Fin 1) ℚ)
          (Matrix.of fun i _ => if i = 0 then 1 else 3 :
            Matrix (Fin 2) (Fin 1) ℚ)) =
      projOut (Matrix.of fun _ _ => (1 : ℚ) : Matrix (Fin 2) (Fin 1) ℚ)
        (Matrix.of fun i _ => if i = 0 then 1 else 3 :
          Matrix (Fin 2) (Fin 1) ℚ) := by
  have hli : LinearIndependent ℚ
      (fun j : Fin 1 =>
        (Matrix.of fun _ _ => (1 : ℚ) : Matrix (Fin 2) (Fin 1) ℚ)ᵀ j) := by
    apply linearIndependent_unique
    intro h
    have := congrFun h 0
    simp [Matrix.transpose_apply, Matrix.of_apply] at this
  exact ⟨hli, clean_idempotent _ _ hli⟩

/-- C4: under standardization, any channel whose original (pre-filter) mean
is zero makes the stage fail with `DegenerateChannelError` (no `inf`/`NaN`
output), while a constant channel with nonzero value `c` — whose mean `c`
is nonzero — succeeds and returns the exactly-zero (hence zero-variance)
channel, provided the design contains an intercept column (detrending). -/
theorem cleanStd_degenerate :
    (∀ (T R C : ℕ) (N : Matrix (Fin T) (Fin R) ℚ)
        (S : Matrix (Fin T) (Fin C) ℚ) (j : Fin C), colMean S j = 0 →
        cleanStd N S = .error .degenerate) ∧
    (∀ (T R : ℕ) (N : Matrix (Fin T) (Fin R) ℚ) (c : ℚ), c ≠ 0 → 0 < T →
        LinearIndependent ℚ (fun j => Nᵀ j) → (∃ r : Fin R, ∀ i, N i r = 1) →
        cleanStd N (Matrix.of fun _ _ => c : Matrix (Fin T) (Fin 1) ℚ) =
          .ok 0) := by
  constructor
  · intro T R C N S j hj
    rw [cleanStd, if_pos ⟨j, hj⟩]
  · rintro T R N c hc hT hfull ⟨r, hr⟩
    have hdet := det_gram_ne_zero N hfull
    set S : Matrix (Fin T) (Fin 1) ℚ := Matrix.of fun _ _ => c with hS
    have hTne : (T : ℚ) ≠ 0 := Nat.cast_ne_zero.mpr hT.ne'
    have hmean : ∀ j : Fin 1, colMean S j = c := by
      intro j
      rw [colMean]
      simp only [hS, Matrix.of_apply, Finset.sum_const, Finset.card_univ,
        Fintype.card_fin, nsmul_eq_mul]
      rw [mul_comm, mul_div_assoc, div_self hTne, mul_one]
    have hproj : projOut N S = 0 := by
      have hSE : S = N * (Matrix.of fun r' _ => if r' = r then c else 0 :
          Matrix (Fin R) (Fin 1) ℚ) := by
        ext i j
        simp only [hS, Matrix.of_apply, Matrix.mul_apply, mul_ite, mul_zero]
        rw [Finset.sum_ite_eq' Finset.univ r (fun k => N i k * c)]
        simp [hr i]
      rw [hSE]
      exact projOut_colspace N _ hdet
    rw [cleanStd, if_neg]
    · congr 1
      ext i j
      rw [Matrix.of_apply, hproj]
      simp
    · rintro ⟨j, hj⟩
      rw [hmean j] at hj
      exact hc hj

/-- Witness for `cleanStd_degenerate`: a zero channel (mean 0) errors on a
1×1 problem; the constant channel `c = 3` with the 2×1 intercept design
succeeds with output 0. -/
theorem cleanStd_degenerate_witness :
    (colMean (Matrix.of fun _ _ => (0 : ℚ) : Matrix (Fin 1) (Fin 1) ℚ) 0 = 0 ∧
      cleanStd (Matrix.of fun _ _ => (1 : ℚ) : Matrix (Fin 1) (Fin 1) ℚ)
        (Matrix.of fun _ _ => (0 : ℚ) : Matrix (Fin 1) (Fin 1) ℚ) =
        .error .degenerate) ∧
    ((3 : ℚ) ≠ 0 ∧ 0 < 2 ∧
      (∃ r : Fin 1, ∀ i : Fin 2,
        (Matrix.of fun _ _ => (1 : ℚ) : Matrix (Fin 2) (Fin 1) ℚ) i r = 1) ∧
      cleanStd (Matrix.of fun _ _ => (1 : ℚ) : Matrix (Fin 2) (Fin 1) ℚ)
        (Matrix.of fun _ _ => (3 : ℚ) : Matrix (Fin 2) (Fin 1) ℚ) = .ok 0) := by
  have hli : LinearIndependent ℚ
      (fun j : Fin 1 =>
        (Matrix.of fun _ _ => (1 : ℚ) : Matrix (Fin 2) (Fin 1) ℚ)ᵀ j) := by
    apply linearIndependent_unique
    intro h
    have := congrFun h 0
    simp [Matrix.transpose_apply, Matrix.of_apply] at this
  have hmean0 : colMean
      (Matrix.of fun _ _ => (0 : ℚ) : Matrix (Fin 1) (Fin 1) ℚ) 0 = 0 := by
    simp [colMean]
  refine ⟨⟨hmean0, cleanStd_degenerate.1 1 1 1 _ _ 0 hmean0⟩,
    ⟨by norm_num, by norm_num, ⟨0, fun i => rfl⟩,
      cleanStd_degenerate.2 2 1 _ 3 (by norm_num) (by norm_num) hli
        ⟨0, fun i => rfl⟩⟩⟩

/-- Counterexample to C5 as stated: the aCompCor extraction path
(`df.filter`) does NOT fail when a requested column is absent — on a table
holding only column `"a"`, requesting `["a", "b"]` silently returns the
single present column and no error. -/
theorem extractCols_counterexample :
    lookupCol [("a", [(1 : ℚ)])] "b" = none ∧
      filterCols [("a", [(1 : ℚ)])] ["a", "b"] = [[(1 : ℚ)]] := by
  constructor <;> rfl

/-- C5 (amended): the head-motion extraction path (`df[labels]`) returns
exactly the named columns in the requested order with no transformation and
fails with `MissingColumnError` whenever any requested column is absent;
the aCompCor extraction path (`df.filter`) instead silently keeps only the
labels present, never raising. -/
theorem extractCols_amended :
    (∀ (tbl : List (String × List ℚ)) (labels : List String),
      (∀ l ∈ labels, (lookupCol tbl l).isSome = true) →
      getCols tbl labels =
        .ok (labels.map (fun l => (lookupCol tbl l).getD []))) ∧
    (∀ (tbl : List (String × List ℚ)) (labels : List String) (l : String),
      l ∈ labels → lookupCol tbl l = none →
      ∃ e, getCols tbl labels = .error e) ∧
    (∀ (tbl : List (String × List ℚ)) (labels : List String),
      filterCols tbl labels =
        (labels.filter (fun l => (lookupCol tbl l).isSome)).map
          (fun l => (lookupCol tbl l).getD [])) := by
  refine ⟨?_, ?_, fun tbl labels => rfl⟩
  · intro tbl labels hall
    have hnone : labels.find? (fun l => (lookupCol tbl l).isNone) = none := by
      apply List.find?_eq_none.mpr
      intro x hx
      have hs := hall x hx
      cases h : lookupCol tbl x with
      | none => rw [h] at hs; simp at hs
      | some v => simp [h]
    rw [getCols, hnone]
  · intro tbl labels l hl hnone
    have hfind : (labels.find? (fun l => (lookupCol tbl l).isNone)).isSome := by
      rcases h : labels.find? (fun l => (lookupCol tbl l).isNone) with _ | l'
      · exact absurd (List.find?_eq_none.mp h l hl) (by simp [hnone])
      · rfl
    obtain ⟨l', hl'⟩ := Option.isSome_iff_exists.mp hfind
    exact ⟨.missing l', by rw [getCols, hl']⟩

/-- Witness for `extractCols_amended`: a table with the single column `"a"`,
requested as `["a"]` (success path) and as `["a", "b"]` (failure path). -/
theorem extractCols_amended_witness :
    ((∀ l ∈ (["a"] : List String),
        (lookupCol [("a", [(1 : ℚ)])] l).isSome = true) ∧
      getCols [("a", [(1 : ℚ)])] ["a"] =
        .ok ((["a"] : List String).map
          (fun l => (lookupCol [("a", [(1 : ℚ)])] l).getD []))) ∧
    ("b" ∈ (["a", "b"] : List String) ∧
      lookupCol [("a", [(1 : ℚ)])] "b" = none ∧
      ∃ e, getCols [("a", [(1 : ℚ)])] ["a", "b"] = .error e) :=
  ⟨⟨by decide, extractCols_amended.1 _ _ (by decide)⟩,
    ⟨by decide, rfl, extractCols_amended.2.1 _ _ "b" (by decide) rfl⟩⟩

/-- Splitting a list's length by a predicate. -/
lemma length_filter_split (l : List ℕ) (p : ℕ → Bool) :
    (l.filter p).length + (l.filter (fun x => !(p x))).length = l.length := by
  induction l with
  | nil => rfl
  | cons a l ih =>
    by_cases h : p a <;> simp [List.filter_cons, h, ← ih] <;> omega

lemma onsetsOf_length (tr : ℕ) (g : List ℕ) :
    (onsetsOf tr g).length = g.length := by
  simp [onsetsOf]

lemma onsetsOf_getD (tr : ℕ) (g : List ℕ) {j : ℕ} (hj : j < g.length) :
    (onsetsOf tr g).getD j 0 =
      ∑ i in Finset.range (j + 1), (tr + g.getD i 0) := by
  rw [onsetsOf, map_range_getD _ _ _ hj]

/-- Successive cumulative-sum onsets are strictly increasing (each increment
is `tr + g[i] ≥ tr`, and `tr = 2 > 0` in the notebook). -/
lemma onsetsOf_strictMono (g : List ℕ) {j j' : ℕ} (hj : j < j')
    (hj' : j' < g.length) :
    (onsetsOf 2 g).getD j 0 < (onsetsOf 2 g).getD j' 0 := by
  rw [onsetsOf_getD 2 g (hj.trans hj'), onsetsOf_getD 2 g hj']
  apply Finset.sum_lt_sum_of_subset (Finset.range_subset.mpr (by omega))
    (Finset.mem_range.mpr (show j + 1 < j' + 1 by omega))
    (Finset.not_mem_range_self) (by omega)
  intro k _ _
  exact Nat.zero_le _

/-- Distinct indices give distinct onsets. -/
lemma onsetsOf_inj (g : List ℕ) {j j' : ℕ} (hj : j < g.length)
    (hj' : j' < g.length)
    (h : (onsetsOf 2 g).getD j 0 = (onsetsOf 2 g).getD j' 0) : j = j' := by
  rcases lt_trichotomy j j' with hlt | heq | hgt
  · exact absurd h (onsetsOf_strictMono g hlt hj').ne
  · exact heq
  · exact absurd h.symm (onsetsOf_strictMono g hgt hj).ne

lemma mkEvents_getD (n : ℕ) (l : List ℕ) {t : ℕ} (ht : t < n) :
    (mkEvents n l).getD t 0 = if t ∈ l then 1 else 0 := by
  rw [mkEvents, map_range_getD _ _ _ ht]

/-- C9: with `n_events = 40` events, a duplicate-free `face_ids` of size 20
drawn from `0..39` and `house_ids` its complement, the two id lists
partition the event indices (disjoint, jointly covering, sizes 20 and 20);
and with the cumulative-sum onsets all within the run length 160, the sum
`face_events + house_events` is exactly 1 at every onset position. -/
theorem event_partition (face g : List ℕ) (hnd : face.Nodup)
    (hlt : ∀ i ∈ face, i < 40) (hlen : face.length = 20)
    (hg : g.length = 40) (hbound : ∀ t ∈ onsetsOf 2 g, t < 160) :
    (∀ i, ¬(i ∈ face ∧ i ∈ houseIds face 40)) ∧
    (∀ i, i < 40 → i ∈ face ∨ i ∈ houseIds face 40) ∧
    (houseIds face 40).length = 20 ∧
    (∀ t ∈ onsetsOf 2 g,
      (mkEvents 160 (indexSel (onsetsOf 2 g) face)).getD t 0 +
        (mkEvents 160 (indexSel (onsetsOf 2 g) (houseIds face 40))).getD t 0
        = 1) := by
  have hmem_house : ∀ i, i ∈ houseIds face 40 ↔ i < 40 ∧ i ∉ face := by
    intro i
    rw [houseIds, List.mem_filter, List.mem_range]
    simp
  refine ⟨?_, ?_, ?_, ?_⟩
  · rintro i ⟨hif, hih⟩
    exact ((hmem_house i).mp hih).2 hif
  · intro i hi
    by_cases hif : i ∈ face
    · exact Or.inl hif
    · exact Or.inr ((hmem_house i).mpr ⟨hi, hif⟩)
  · have hperm : face.Perm ((List.range 40).filter (fun i => decide (i ∈ face))) := by
      apply (List.perm_ext_iff_of_nodup hnd ((List.nodup_range 40).filter _)).mpr
      intro a
      rw [List.mem_filter, List.mem_range]
      constructor
      · intro ha
        exact ⟨hlt a ha, decide_eq_true ha⟩
      · rintro ⟨_, ha⟩
        exact of_decide_eq_true ha
    have hsplit := length_filter_split (List.range 40)
      (fun i => decide (i ∈ face))
    have hin : ((List.range 40).filter (fun i => decide (i ∈ face))).length = 20 := by
      rw [← hperm.length_eq, hlen]
    have hhouse : houseIds face 40 =
        (List.range 40).filter (fun i => !(decide (i ∈ face))) := by
      rw [houseIds]
      congr 1
      funext i
      simp
    rw [hhouse]
    simp only [List.length_range] at hsplit
    omega
  · intro t htons
    obtain ⟨j, hjlt, hjt⟩ := List.mem_iff_getElem.mp htons
    have hjg : j < g.length := by
      rw [← onsetsOf_length 2 g]
      exact hjlt
    have hgd : (onsetsOf 2 g).getD j 0 = t := by
      rw [List.getD_eq_getElem _ _ hjlt, hjt]
    have ht160 : t < 160 := hbound t htons
    have hface_mem : ∀ ids : List ℕ, (∀ i ∈ ids, i < 40) →
        (t ∈ indexSel (onsetsOf 2 g) ids ↔ j ∈ ids) := by
      intro ids hids
      rw [indexSel, List.mem_map]
      constructor
      · rintro ⟨j', hj', hj't⟩
        have hj'40 : j' < g.length := by rw [hg]; exact hids j' hj'
        rwa [← onsetsOf_inj g hj'40 hjg (by rw [hj't, hgd])]
      · intro hj
        exact ⟨j, hj, hgd⟩
    have hj40 : j < 40 := by rw [← hg]; exact hjg
    rw [mkEvents_getD 160 _ ht160, mkEvents_getD 160 _ ht160]
    simp only [hface_mem face hlt,
      hface_mem (houseIds face 40) (fun i hi => ((hmem_house i).mp hi).1)]
    by_cases hjf : j ∈ face
    · rw [if_pos hjf, if_neg (fun hjh => ((hmem_house j).mp hjh).2 hjf),
        add_zero]
    · rw [if_neg hjf, if_pos ((hmem_house j).mpr ⟨hj40, hjf⟩), zero_add]

/-- Witness for `event_partition`: `face_ids = [0, …, 19]` and all-ones
geometric samples (onsets 3, 6, …, 120, all below 160). -/
theorem event_partition_witness :
    ((List.range 20).Nodup ∧ (∀ i ∈ List.range 20, i < 40) ∧
      (List.range 20).length = 20 ∧ (List.replicate 40 1).length = 40 ∧
      (∀ t ∈ onsetsOf 2 (List.replicate 40 1), t < 160)) ∧
    (∀ i, ¬(i ∈ List.range 20 ∧ i ∈ houseIds (List.range 20) 40)) ∧
    (∀ i, i < 40 → i ∈ List.range 20 ∨ i ∈ houseIds (List.range 20) 40) ∧
    (houseIds (List.range 20) 40).length = 20 ∧
    (∀ t ∈ onsetsOf 2 (List.replicate 40 1),
      (mkEvents 160 (indexSel (onsetsOf 2 (List.replicate 40 1))
        (List.range 20))).getD t 0 +
        (mkEvents 160 (indexSel (onsetsOf 2 (List.replicate 40 1))
          (houseIds (List.range 20) 40))).getD t 0 = 1) :=
  ⟨⟨List.nodup_range 20, by decide, rfl, rfl, by decide⟩,
    event_partition (List.range 20) (List.replicate 40 1)
      (List.nodup_range 20) (by decide) rfl rfl (by decide)⟩

end Neu502b
